import Mathlib

/-!
Verification of the `html-purifier` crate (`src/lib.rs`).

The crate delegates HTML tokenization, rewriting and serialization to the
`lol_html` library (`rewrite_str`), which is not part of this repository's
sources; following the specification (§2, §4) that machinery is modelled
here from the spec's tokenizer / rewriter / serializer contracts.  The
policy code that *is* in `src/lib.rs` — `element_handler`,
`comment_handler`, `Settings::default` and the `purifier` entry point — is
translated directly from the source.

Strings are modelled as `List Char`; machine strings of the configuration
keep the source's `String` type.
-/

namespace HtmlPurifier

/-- `AllowedElement` from `src/lib.rs` lines 38-41: an allow-listed element
name together with its attribute allow-list. -/
structure AllowedElement where
  name : String
  attributes : List String
deriving DecidableEq, Repr

/-- `Settings` from `src/lib.rs` lines 43-47: ordered allow-list plus the
comment-removal flag. -/
structure Settings where
  allowed : List AllowedElement
  remove_comments : Bool
deriving DecidableEq, Repr

/-- `Settings::default` from `src/lib.rs` lines 49-119, element by element. -/
def Settings.default : Settings :=
  { allowed :=
      [ ⟨"div", []⟩,
        ⟨"b", []⟩,
        ⟨"strong", []⟩,
        ⟨"i", []⟩,
        ⟨"em", []⟩,
        ⟨"u", []⟩,
        ⟨"a", ["href", "title"]⟩,
        ⟨"ul", []⟩,
        ⟨"ol", []⟩,
        ⟨"li", []⟩,
        ⟨"p", ["style"]⟩,
        ⟨"br", []⟩,
        ⟨"span", ["style"]⟩,
        ⟨"img", ["width", "height", "alt", "src"]⟩ ],
    remove_comments := true }

/-- An attribute as seen by the rewriter: lowercased name and raw value. -/
abbrev Attr := List Char × List Char

/-- Modelled from the spec: §3's `Token` variant produced by the missing
`lol_html` tokenizer.  Tag and attribute names are ASCII-lowercased by the
tokenizer (HTML tokenization, which the spec's §4.1 "permissive HTML
tokenization" refers to, lowercases them); text, comments and other
constructs carry their raw source bytes. -/
inductive Tok
  | startTag (name : List Char) (attrs : List Attr) (selfClosing : Bool)
  | endTag (name : List Char)
  | text (raw : List Char)
  | comment (raw : List Char)
  | other (raw : List Char)
deriving DecidableEq, Repr

/-- ASCII whitespace for tag-noise tolerant parsing. -/
def isWs (c : Char) : Bool :=
  c = ' ' || c = '\t' || c = '\n' || c = '\r' || c = '\x0c'

/-- Characters that may continue a tag name. -/
def nameChar (c : Char) : Bool :=
  !(isWs c || c = '/' || c = '>')

/-- Characters that may continue an end-tag name. -/
def endNameChar (c : Char) : Bool :=
  !(isWs c || c = '>')

/-- ASCII-lowercase a name. -/
def lowerName (l : List Char) : List Char := l.map Char.toLower

/-- Does `pat` literally lead the list? -/
def leadsWith : List Char → List Char → Bool
  | [], _ => true
  | _ :: _, [] => false
  | p :: ps, c :: cs => p == c && leadsWith ps cs

/-- Does the lowercase pattern `pat` lead the list, case-insensitively? -/
def leadsWithCI : List Char → List Char → Bool
  | [], _ => true
  | _ :: _, [] => false
  | p :: ps, c :: cs => p == c.toLower && leadsWithCI ps cs

/-- Modelled from the spec: §4.1 tolerant scan to (and through) the next
`>`, used for end-tag tails, doctype and bogus constructs. -/
def scanGt : List Char → List Char × List Char
  | [] => ([], [])
  | c :: cs =>
    if c = '>' then ([c], cs)
    else
      let (a, r) := scanGt cs
      (c :: a, r)

/-- Modelled from the spec: §4.1 comment recognition — split a comment body
at the first terminating sequence, or `none` when the comment runs to
end of input. -/
def splitCmt : List Char → Option (List Char × List Char)
  | [] => none
  | c :: cs =>
    if leadsWith ['-', '-', '>'] (c :: cs) then some ([], (c :: cs).drop 3)
    else
      match splitCmt cs with
      | some (a, r) => some (c :: a, r)
      | none => none

/-- Modelled from the spec: §4.1 raw-text mode for `script` / `style`
content — split the input before the first case-insensitive occurrence of
the closing pattern. -/
def splitRaw (close : List Char) : List Char → List Char × List Char
  | [] => ([], [])
  | c :: cs =>
    if leadsWithCI close (c :: cs) then ([], c :: cs)
    else
      let (a, r) := splitRaw close cs
      (c :: a, r)

/-- Modelled from the spec: §4.1 tolerant attribute-value parsing
(double-quoted, single-quoted or unquoted). Returns the raw value and the
rest of the input. -/
def parseVal : List Char → List Char × List Char
  | [] => ([], [])
  | c :: cs =>
    if c = '"' then
      (cs.takeWhile (fun d => !(d = '"')), (cs.dropWhile (fun d => !(d = '"'))).drop 1)
    else if c = Char.ofNat 39 then
      (cs.takeWhile (fun d => !(d = Char.ofNat 39)),
       (cs.dropWhile (fun d => !(d = Char.ofNat 39))).drop 1)
    else
      ((c :: cs).takeWhile (fun d => !(isWs d || d = '>')),
       (c :: cs).dropWhile (fun d => !(isWs d || d = '>')))

/-- Characters that may continue an attribute name. -/
def attrNameChar (c : Char) : Bool :=
  !(isWs c || c = '=' || c = '/' || c = '>')

/-- Modelled from the spec: §4.1 tolerant attribute-list parsing inside a
start tag; a malformed attribute is skipped, never fatal.  Returns the
attributes (names lowercased), the self-closing flag, and the input after
the closing `>`.  Fuel bounds the loop; each iteration consumes input. -/
def parseAttrs : Nat → List Char → List Attr × Bool × List Char
  | 0, cs => ([], false, cs)
  | _ + 1, [] => ([], false, [])
  | fuel + 1, c :: cs =>
    if isWs c then parseAttrs fuel cs
    else if c = '>' then ([], false, cs)
    else if c = '/' then
      match cs with
      | '>' :: r => ([], true, r)
      | _ => parseAttrs fuel cs
    else
      let n := (c :: cs).takeWhile attrNameChar
      let rest := (c :: cs).dropWhile attrNameChar
      match rest with
      | '=' :: r =>
        let (v, r2) := parseVal r
        let (ats, sc, rr) := parseAttrs fuel r2
        ((lowerName n, v) :: ats, sc, rr)
      | _ =>
        let (ats, sc, rr) := parseAttrs fuel rest
        ((lowerName n, []) :: ats, sc, rr)

/-- Modelled from the spec: §4.1's streaming HTML tokenizer (the part of
the pipeline supplied by the `lol_html` dependency, absent from `src/`).
One forward pass; a `<` not opening a recognized construct is literal
text; comments, doctype/CDATA/bogus constructs and raw text are kept as
raw spans; `script`/`style` bodies are opaque text until the matching end
tag; malformed input never fails.  Fuel decreases at every emitted
construct and every construct consumes at least one character. -/
def tokenizeAux : Nat → List Char → List Tok
  | 0, _ => []
  | _ + 1, [] => []
  | fuel + 1, c :: cs =>
    if c = '<' then
      match cs with
      | [] => [Tok.text ['<']]
      | '!' :: '-' :: '-' :: body =>
        match splitCmt body with
        | some (a, r) =>
          Tok.comment ('<' :: '!' :: '-' :: '-' :: (a ++ ['-', '-', '>'])) :: tokenizeAux fuel r
        | none => [Tok.comment ('<' :: '!' :: '-' :: '-' :: body)]
      | '!' :: body =>
        let (a, r) := scanGt body
        Tok.other ('<' :: '!' :: a) :: tokenizeAux fuel r
      | '?' :: body =>
        let (a, r) := scanGt body
        Tok.other ('<' :: '?' :: a) :: tokenizeAux fuel r
      | '/' :: [] => [Tok.text ['<', '/']]
      | '/' :: d :: body =>
        if d.isAlpha then
          let n := lowerName ((d :: body).takeWhile endNameChar)
          let tail := (d :: body).dropWhile endNameChar
          let (_, r) := scanGt tail
          Tok.endTag n :: tokenizeAux fuel r
        else
          let (a, r) := scanGt (d :: body)
          Tok.other ('<' :: '/' :: a) :: tokenizeAux fuel r
      | d :: body =>
        if d.isAlpha then
          let n := lowerName ((d :: body).takeWhile nameChar)
          let tail := (d :: body).dropWhile nameChar
          let (ats, sc, r) := parseAttrs (tail.length + 1) tail
          if (n == ['s', 'c', 'r', 'i', 'p', 't'] || n == ['s', 't', 'y', 'l', 'e']) && !sc then
            let (txt, r2) := splitRaw ('<' :: '/' :: n) r
            if txt = [] then Tok.startTag n ats sc :: tokenizeAux fuel r2
            else Tok.startTag n ats sc :: Tok.text txt :: tokenizeAux fuel r2
          else
            Tok.startTag n ats sc :: tokenizeAux fuel r
        else
          Tok.text ['<'] :: tokenizeAux fuel (d :: body)
    else
      Tok.text ((c :: cs).takeWhile (fun d => !(d = '<')))
        :: tokenizeAux fuel ((c :: cs).dropWhile (fun d => !(d = '<')))

/-- Modelled from the spec: the tokenizer entry point; the fuel
`length + 1` is enough because every construct consumes input. -/
def tokenize (l : List Char) : List Tok := tokenizeAux (l.length + 1) l

/-- The allow-list lookup of `src/lib.rs` line 136:
`settings.allowed.iter().find(|e| e.name.eq(&el.tag_name()))`.
`el.tag_name()` is the tokenizer's lowercased tag name; `eq` is plain
case-sensitive string equality. -/
def findAllowed (settings : Settings) (name : List Char) : Option AllowedElement :=
  settings.allowed.find? (fun e => e.name.data == name)

/-- The attribute filter of `src/lib.rs` lines 137-145: attributes whose
(lowercased) name is not contained in `find.attributes` are removed, the
rest are kept untouched. -/
def filteredAttrs (find : AllowedElement) (attrs : List Attr) : List Attr :=
  attrs.filter (fun attr => (find.attributes.map String.data).contains attr.1)

/-- The effect the element handler requests on the current element:
either keep it with the given filtered attributes, or `remove_and_keep_content`. -/
inductive ElementAction
  | keep (kept : List Attr)
  | removeKeepContent
deriving DecidableEq, Repr

/-- `element_handler` from `src/lib.rs` lines 135-150.  As in the source
the closure returns a `Result` (here `Except`) and always ends in `Ok`. -/
def element_handler (settings : Settings) (name : List Char) (attrs : List Attr) :
    Except String ElementAction :=
  match findAllowed settings name with
  | some find => Except.ok (ElementAction.keep (filteredAttrs find attrs))
  | none => Except.ok ElementAction.removeKeepContent

/-- `comment_handler` from `src/lib.rs` lines 152-157: reports whether the
comment is removed; always `Ok`. -/
def comment_handler (settings : Settings) : Except String Bool :=
  Except.ok settings.remove_comments

/-- Modelled from the spec: §3's `OpenElementStack` frame — the element
name and the decision (`allowed = true` for ALLOW, `false` for
REMOVE_UNWRAP) recorded when its start tag was seen. -/
structure Frame where
  name : List Char
  allowed : Bool
deriving DecidableEq, Repr

/-- Modelled from the spec: §4.3 end-tag resolution — search the stack from
the top for the nearest frame with the matching name (names are already
lowercased, so equality is the case-insensitive match); pop it and every
frame above it, or `none` for a stray end tag. -/
def popTo : List Frame → List Char → Option (Bool × List Frame)
  | [], _ => none
  | f :: fs, name => if f.name == name then some (f.allowed, fs) else popTo fs name

/-- Modelled from the spec: §3's `OutputEvent`, already specialized to what
the serializer needs; `Suppress` is represented by emitting nothing. -/
inductive OutEvent
  | emitStart (name : List Char) (attrs : List Attr) (selfClosing : Bool)
  | emitEnd (name : List Char)
  | emitRaw (raw : List Char)
deriving DecidableEq, Repr

/-- Modelled from the spec: §4.3's rewriter state machine (the `lol_html`
rewriting loop, absent from `src/`), driving the repository's two
handlers and propagating their `Result`s as `rewrite_str` does.
Start tags are classified by `element_handler`; disallowed elements are
unwrapped (suppressed, children still processed); end tags echo the
decision of their start tag via the open-element stack; text, doctype and
bogus constructs pass through; comments obey `comment_handler`. -/
def rewriteToks (settings : Settings) : List Frame → List Tok → Except String (List OutEvent)
  | _, [] => Except.ok []
  | stack, Tok.startTag name attrs sc :: rest =>
    match element_handler settings name attrs with
    | Except.error e => Except.error e
    | Except.ok (ElementAction.keep kept) =>
      match rewriteToks settings (if sc then stack else ⟨name, true⟩ :: stack) rest with
      | Except.error e => Except.error e
      | Except.ok evs => Except.ok (OutEvent.emitStart name kept sc :: evs)
    | Except.ok ElementAction.removeKeepContent =>
      rewriteToks settings (if sc then stack else ⟨name, false⟩ :: stack) rest
  | stack, Tok.endTag name :: rest =>
    match popTo stack name with
    | some (true, stack2) =>
      match rewriteToks settings stack2 rest with
      | Except.error e => Except.error e
      | Except.ok evs => Except.ok (OutEvent.emitEnd name :: evs)
    | some (false, stack2) => rewriteToks settings stack2 rest
    | none => rewriteToks settings stack rest
  | stack, Tok.text raw :: rest =>
    match rewriteToks settings stack rest with
    | Except.error e => Except.error e
    | Except.ok evs => Except.ok (OutEvent.emitRaw raw :: evs)
  | stack, Tok.comment raw :: rest =>
    match comment_handler settings with
    | Except.error e => Except.error e
    | Except.ok true => rewriteToks settings stack rest
    | Except.ok false =>
      match rewriteToks settings stack rest with
      | Except.error e => Except.error e
      | Except.ok evs => Except.ok (OutEvent.emitRaw raw :: evs)
  | stack, Tok.other raw :: rest =>
    match rewriteToks settings stack rest with
    | Except.error e => Except.error e
    | Except.ok evs => Except.ok (OutEvent.emitRaw raw :: evs)

/-- Render one retained attribute as ` name="value"`. -/
def renderAttr (a : Attr) : List Char :=
  ' ' :: (a.1 ++ '=' :: '"' :: (a.2 ++ ['"']))

/-- Modelled from the spec: §4.4's serializer for one output event —
rebuilt tag syntax for (possibly modified) start tags, `</name>` for end
tags, raw spans verbatim.  Raw spans are already source-form HTML, so
emitting them verbatim is the spec's escaping made a no-op.
Simplification: tokens do not retain the raw span of a start tag, so kept
tags are rebuilt from the lowercased token name; the real serializer
emits an untouched tag's raw bytes, preserving the input's letter case.
The two coincide whenever kept tag and attribute names are lowercase in
the input (as in every output-level theorem below); no theorem states
output bytes for a kept mixed-case tag. -/
def renderEvent : OutEvent → List Char
  | OutEvent.emitStart name attrs sc =>
    '<' :: (name ++ (attrs.map renderAttr).flatten ++ (if sc then [' ', '/', '>'] else ['>']))
  | OutEvent.emitEnd name => '<' :: '/' :: (name ++ ['>'])
  | OutEvent.emitRaw raw => raw

/-- Modelled from the spec: §4.4 — concatenation of the rendered events in
emission order. -/
def serialize : List OutEvent → List Char
  | [] => []
  | e :: es => renderEvent e ++ serialize es

/-- `rewrite_str` of the `lol_html` dependency as used at `src/lib.rs`
lines 159-169: run the rewriter over the token stream with the two
handlers and serialize, propagating any handler error. -/
def rewrite_str (input : String) (settings : Settings) : Except String String :=
  match rewriteToks settings [] (tokenize input.data) with
  | Except.ok evs => Except.ok (String.mk (serialize evs))
  | Except.error e => Except.error e

/-- `purifier` from `src/lib.rs` lines 134-172.  The `.unwrap()` on
`rewrite_str` is modelled by the `Except.error` fallback branch, proved
unreachable below. -/
def purifier (input : String) (settings : Settings) : String :=
  match rewrite_str input settings with
  | Except.ok s => s
  | Except.error _ => ""

/-! ## Helper lemmas -/

/-- Two strings with the same character data are equal. -/
theorem string_data_inj {s t : String} (h : s.data = t.data) : s = t :=
  congrArg String.mk h

/-- The rewriter never produces an error: both handlers always return `Ok`. -/
theorem rewriteToks_ok (settings : Settings) (toks : List Tok) :
    ∀ stack, ∃ evs, rewriteToks settings stack toks = Except.ok evs := by
  induction toks with
  | nil => exact fun _ => ⟨[], rfl⟩
  | cons t rest ih =>
    intro stack
    cases t with
    | startTag name attrs sc =>
      cases hf : findAllowed settings name with
      | some find =>
        obtain ⟨evs, h⟩ := ih (if sc then stack else ⟨name, true⟩ :: stack)
        exact ⟨OutEvent.emitStart name (filteredAttrs find attrs) sc :: evs,
          by simp [rewriteToks, element_handler, hf, h]⟩
      | none =>
        obtain ⟨evs, h⟩ := ih (if sc then stack else ⟨name, false⟩ :: stack)
        exact ⟨evs, by simp [rewriteToks, element_handler, hf, h]⟩
    | endTag name =>
      cases hp : popTo stack name with
      | some pr =>
        obtain ⟨b, stack2⟩ := pr
        cases b with
        | true =>
          obtain ⟨evs, h⟩ := ih stack2
          exact ⟨OutEvent.emitEnd name :: evs, by simp [rewriteToks, hp, h]⟩
        | false =>
          obtain ⟨evs, h⟩ := ih stack2
          exact ⟨evs, by simp [rewriteToks, hp, h]⟩
      | none =>
        obtain ⟨evs, h⟩ := ih stack
        exact ⟨evs, by simp [rewriteToks, hp, h]⟩
    | text raw =>
      obtain ⟨evs, h⟩ := ih stack
      exact ⟨OutEvent.emitRaw raw :: evs, by simp [rewriteToks, h]⟩
    | comment raw =>
      obtain ⟨evs, h⟩ := ih stack
      cases hc : settings.remove_comments with
      | true => exact ⟨evs, by simp [rewriteToks, comment_handler, hc, h]⟩
      | false => exact ⟨OutEvent.emitRaw raw :: evs, by simp [rewriteToks, comment_handler, hc, h]⟩
    | other raw =>
      obtain ⟨evs, h⟩ := ih stack
      exact ⟨OutEvent.emitRaw raw :: evs, by simp [rewriteToks, h]⟩

/-! ## Claim theorems -/

/-- C1: for every input string and every `Settings` value the internal
rewrite succeeds — `rewrite_str` returns `Ok` with exactly the string that
`purifier` returns, so the `.unwrap()` error branch is unreachable and
`purifier` always returns a string. -/
theorem purifier_total (input : String) (settings : Settings) :
    rewrite_str input settings = Except.ok (purifier input settings) := by
  obtain ⟨evs, h⟩ := rewriteToks_ok settings (tokenize input.data) []
  simp [purifier, rewrite_str, h]

/-- C7: with default settings, the documented end-to-end example rewrites
exactly as the spec claims — `style` is stripped from `a`, `onerror` from
`img`, `href` and `src` are kept. -/
theorem purifier_example_default :
    purifier "<a href=\"/test\" style=\"color: black;\"><img src=\"/logo.png\" onerror=\"javascript:;\"/>Rust</a>"
        Settings.default
      = "<a href=\"/test\"><img src=\"/logo.png\" />Rust</a>" := by
  decide

/-- C8: `Settings::default` permits exactly the elements of the spec's
default policy, in order, with exactly the listed attribute allow-lists,
and removes comments. -/
theorem settings_default_spec :
    Settings.default.allowed.map (fun e => (e.name, e.attributes)) =
      [("div", []), ("b", []), ("strong", []), ("i", []), ("em", []), ("u", []),
       ("a", ["href", "title"]), ("ul", []), ("ol", []), ("li", []),
       ("p", ["style"]), ("br", []), ("span", ["style"]),
       ("img", ["width", "height", "alt", "src"])]
    ∧ Settings.default.remove_comments = true := by
  decide

/-- C10: `purifier` is deterministic and pure — its result depends on
nothing besides the input string and the settings, so two runs on equal
arguments produce identical output. -/
theorem purifier_deterministic (x₁ x₂ : String) (S₁ S₂ : Settings)
    (hx : x₁ = x₂) (hS : S₁ = S₂) : purifier x₁ S₁ = purifier x₂ S₂ := by
  rw [hx, hS]

/-- Witness for C10 at concrete arguments. -/
theorem purifier_deterministic_w :
    purifier "<b>x</b>" Settings.default = purifier "<b>x</b>" Settings.default :=
  purifier_deterministic "<b>x</b>" "<b>x</b>" Settings.default Settings.default rfl rfl

/-- C2 counterexample: classification is NOT case-insensitive in the
configured-name direction.  With the allow-list entry named `"DIV"` the
input element `<div>` does not match (`findAllowed` fails) and the element
is unwrapped rather than treated as allowed. -/
theorem classify_not_ci_counterexample :
    findAllowed ⟨[⟨"DIV", []⟩], true⟩ ['d', 'i', 'v'] = none
    ∧ purifier "<div>x</div>" ⟨[⟨"DIV", []⟩], true⟩ = "x" := by
  decide

/-- C2 amended: classification compares the configured name with the
lowercased input tag name using exact, case-sensitive equality — a match
forces the configured name to be byte-equal to the lowercased tag name,
so a configured name containing uppercase (such as `"DIV"`) never matches
any element; case differences on the *input* side do not affect
classification, because the tokenizer lowercases tag names before lookup:
`<DIV>` is classified by the name `div` and, with configured name
`"div"`, is treated as allowed. -/
theorem classify_lower_exact :
    (∀ (S : Settings) (n : List Char) (e : AllowedElement),
        findAllowed S n = some e → e.name.data = n)
    ∧ (tokenize "<DIV>x</DIV>".data
        = [Tok.startTag ['d', 'i', 'v'] [] false, Tok.text ['x'], Tok.endTag ['d', 'i', 'v']]
       ∧ findAllowed Settings.default ['d', 'i', 'v'] = some ⟨"div", []⟩) := by
  constructor
  · intro S n e h
    have hp := List.find?_some h
    simpa using hp
  · decide

/-- Witness for C2's amended theorem at a concrete lookup. -/
theorem classify_lower_exact_w :
    (AllowedElement.mk "div" []).name.data = ['d', 'i', 'v'] :=
  classify_lower_exact.1 Settings.default ['d', 'i', 'v'] ⟨"div", []⟩ (by decide)

/-- C3 counterexample: `purifier` is not idempotent.  Unwrapping the
disallowed `<x>` tags in `<<x>!--<x>-->` concatenates the surrounding
text into the comment `<!---->`, which a second pass (default settings)
removes, so purifying twice yields `""` while purifying once yields
`<!---->`. -/
theorem purifier_not_idempotent :
    purifier (purifier "<<x>!--<x>-->" Settings.default) Settings.default
      ≠ purifier "<<x>!--<x>-->" Settings.default := by
  decide

/-- A list all of whose elements satisfy `p` is untouched by `takeWhile`
and fully consumed by `dropWhile`. -/
theorem takeWhile_dropWhile_all {p : Char → Bool} :
    ∀ {l : List Char}, (∀ c ∈ l, p c = true) →
      l.takeWhile p = l ∧ l.dropWhile p = [] := by
  intro l
  induction l with
  | nil => intro _; exact ⟨rfl, rfl⟩
  | cons c cs ih =>
    intro h
    have hc : p c = true := h c (List.mem_cons_self c cs)
    have ihc := ih (fun d hd => h d (List.mem_cons_of_mem c hd))
    constructor
    · simp [List.takeWhile_cons, hc, ihc.1]
    · simp [List.dropWhile_cons, hc, ihc.2]

set_option maxHeartbeats 1000000 in
/-- Nonempty input without `<` tokenizes to a single text token. -/
theorem tokenize_cons_tagfree {c : Char} {cs : List Char} (h : ∀ d ∈ c :: cs, d ≠ '<') :
    tokenize (c :: cs) = [Tok.text (c :: cs)] := by
  have hc : ¬c = '<' := h c (List.mem_cons_self c cs)
  have hall : ∀ d ∈ c :: cs, (fun d => !(d = '<')) d = true := by
    intro d hd
    simp [h d hd]
  obtain ⟨h1, h2⟩ := takeWhile_dropWhile_all hall
  show tokenizeAux (cs.length + 1 + 1) (c :: cs) = [Tok.text (c :: cs)]
  generalize cs.length + 1 = fuel
  rw [tokenizeAux.eq_def]
  simp only [if_neg hc, h1, h2]
  cases fuel <;> rfl

/-- Tag-free input passes through `purifier` unchanged. -/
theorem purifier_tagfree (x : String) (S : Settings) (h : ∀ c ∈ x.data, c ≠ '<') :
    purifier x S = x := by
  cases hd : x.data with
  | nil =>
    have hrw : rewriteToks S [] (tokenize ([] : List Char)) = Except.ok [] := rfl
    apply string_data_inj
    rw [hd]
    simp [purifier, rewrite_str, hd, hrw, serialize]
  | cons c cs =>
    have ht : tokenize (c :: cs) = [Tok.text (c :: cs)] := by
      apply tokenize_cons_tagfree
      rw [← hd]
      exact h
    have hrw : rewriteToks S [] (tokenize (c :: cs))
        = Except.ok [OutEvent.emitRaw (c :: cs)] := by
      rw [ht]
      simp [rewriteToks]
    apply string_data_inj
    rw [hd]
    simp [purifier, rewrite_str, hd, hrw, serialize, renderEvent]

/-- C3 amended: `purifier` is not idempotent in general, because
unwrapping can concatenate text into new markup that a second pass
removes; idempotence does hold on inputs containing no `<`, where
`purifier` is the identity. -/
theorem purifier_idempotent_tagfree (x : String) (S : Settings)
    (h : ∀ c ∈ x.data, c ≠ '<') :
    purifier x S = x ∧ purifier (purifier x S) S = purifier x S := by
  have h1 := purifier_tagfree x S h
  refine ⟨h1, ?_⟩
  rw [h1]
  exact h1

/-- Witness for C3's amended theorem at a concrete tag-free input. -/
theorem purifier_idempotent_tagfree_w :
    purifier "abc" Settings.default = "abc"
    ∧ purifier (purifier "abc" Settings.default) Settings.default
        = purifier "abc" Settings.default :=
  purifier_idempotent_tagfree "abc" Settings.default (by decide)

/-- C5: for every `Settings` with no allow-list entry named `script`,
purifying `<script>keep</script>` yields `keep` — the disallowed tag's
start and end markers are removed but the content is retained in place
(unwrap, not subtree deletion). -/
theorem unwrap_keep_content (S : Settings) (h : ∀ e ∈ S.allowed, e.name ≠ "script") :
    purifier "<script>keep</script>" S = "keep" := by
  have ht : tokenize "<script>keep</script>".data =
      [Tok.startTag ['s', 'c', 'r', 'i', 'p', 't'] [] false,
       Tok.text ['k', 'e', 'e', 'p'],
       Tok.endTag ['s', 'c', 'r', 'i', 'p', 't']] := by decide
  have hdata : ("script" : String).data = ['s', 'c', 'r', 'i', 'p', 't'] := by decide
  have hf : findAllowed S ['s', 'c', 'r', 'i', 'p', 't'] = none := by
    rw [findAllowed, List.find?_eq_none]
    intro e he
    simp only [beq_iff_eq]
    intro hcontra
    exact h e he (string_data_inj (hcontra.trans hdata.symm))
  have hrw : rewriteToks S [] (tokenize "<script>keep</script>".data)
      = Except.ok [OutEvent.emitRaw ['k', 'e', 'e', 'p']] := by
    rw [ht]
    simp [rewriteToks, element_handler, hf, popTo]
  simp [purifier, rewrite_str, hrw, serialize, renderEvent]

/-- Witness for C5 at the default settings (which do not allow `script`). -/
theorem unwrap_keep_content_w :
    purifier "<script>keep</script>" Settings.default = "keep" :=
  unwrap_keep_content Settings.default (by decide)

/-- When comments are not removed, every comment token of the input is
turned into a verbatim output event by the rewriter. -/
theorem comment_kept (S : Settings) (hS : S.remove_comments = false) (raw : List Char) :
    ∀ (toks : List Tok) (stack : List Frame) (evs : List OutEvent),
      rewriteToks S stack toks = Except.ok evs → Tok.comment raw ∈ toks →
      OutEvent.emitRaw raw ∈ evs := by
  intro toks
  induction toks with
  | nil =>
    intro stack evs _ hm
    simp at hm
  | cons t rest ih =>
    intro stack evs h hm
    rcases List.mem_cons.mp hm with heq | hmem
    · subst heq
      simp only [rewriteToks, comment_handler, hS] at h
      cases hr : rewriteToks S stack rest with
      | error e =>
        rw [hr] at h
        simp at h
      | ok evs2 =>
        rw [hr] at h
        simp only [Except.ok.injEq] at h
        subst h
        exact List.mem_cons_self _ _
    · cases t with
      | startTag name attrs sc =>
        simp only [rewriteToks, element_handler] at h
        cases hf : findAllowed S name with
        | some find =>
          rw [hf] at h
          cases hr : rewriteToks S (if sc then stack else ⟨name, true⟩ :: stack) rest with
          | error e =>
            rw [hr] at h
            simp at h
          | ok evs2 =>
            rw [hr] at h
            simp only [Except.ok.injEq] at h
            subst h
            exact List.mem_cons_of_mem _ (ih _ _ hr hmem)
        | none =>
          rw [hf] at h
          exact ih _ _ h hmem
      | endTag name =>
        simp only [rewriteToks] at h
        cases hp : popTo stack name with
        | some pr =>
          obtain ⟨b, stack2⟩ := pr
          cases b with
          | true =>
            simp only [hp] at h
            cases hr : rewriteToks S stack2 rest with
            | error e =>
              rw [hr] at h
              simp at h
            | ok evs2 =>
              rw [hr] at h
              simp only [Except.ok.injEq] at h
              subst h
              exact List.mem_cons_of_mem _ (ih _ _ hr hmem)
          | false =>
            rw [hp] at h
            exact ih _ _ h hmem
        | none =>
          rw [hp] at h
          exact ih _ _ h hmem
      | text raw2 =>
        simp only [rewriteToks] at h
        cases hr : rewriteToks S stack rest with
        | error e =>
          rw [hr] at h
          simp at h
        | ok evs2 =>
          rw [hr] at h
          simp only [Except.ok.injEq] at h
          subst h
          exact List.mem_cons_of_mem _ (ih _ _ hr hmem)
      | comment raw2 =>
        simp only [rewriteToks, comment_handler, hS] at h
        cases hr : rewriteToks S stack rest with
        | error e =>
          rw [hr] at h
          simp at h
        | ok evs2 =>
          rw [hr] at h
          simp only [Except.ok.injEq] at h
          subst h
          exact List.mem_cons_of_mem _ (ih _ _ hr hmem)
      | other raw2 =>
        simp only [rewriteToks] at h
        cases hr : rewriteToks S stack rest with
        | error e =>
          rw [hr] at h
          simp at h
        | ok evs2 =>
          rw [hr] at h
          simp only [Except.ok.injEq] at h
          subst h
          exact List.mem_cons_of_mem _ (ih _ _ hr hmem)

/-- Each emitted event's rendering occurs contiguously in the serialized
output. -/
theorem serialize_mem {ev : OutEvent} :
    ∀ {evs : List OutEvent}, ev ∈ evs →
      ∃ p q, serialize evs = p ++ (renderEvent ev ++ q) := by
  intro evs
  induction evs with
  | nil =>
    intro h
    simp at h
  | cons e es ih =>
    intro h
    rcases List.mem_cons.mp h with heq | hmem
    · subst heq
      exact ⟨[], serialize es, rfl⟩
    · obtain ⟨p, q, hpq⟩ := ih hmem
      exact ⟨renderEvent e ++ p, q, by simp [serialize, hpq]⟩

/-- C6: for every `Settings`, if `remove_comments` is set then
`purifier "<!--x-->a"` is `"a"` (the comment is deleted); if it is not
set, every comment of every input appears verbatim in the output,
delimiters included (the comment token's raw span — `<!--…-->` — is a
contiguous substring of the output). -/
theorem comment_policy (S : Settings) :
    (S.remove_comments = true → purifier "<!--x-->a" S = "a")
    ∧ (S.remove_comments = false → ∀ (input : String) (raw : List Char),
        Tok.comment raw ∈ tokenize input.data →
        ∃ p q, (purifier input S).data = p ++ (raw ++ q)) := by
  constructor
  · intro hS
    have ht : tokenize "<!--x-->a".data =
        [Tok.comment ['<', '!', '-', '-', 'x', '-', '-', '>'], Tok.text ['a']] := by
      decide
    have hrw : rewriteToks S [] (tokenize "<!--x-->a".data)
        = Except.ok [OutEvent.emitRaw ['a']] := by
      rw [ht]
      simp [rewriteToks, comment_handler, hS]
    simp [purifier, rewrite_str, hrw, serialize, renderEvent]
  · intro hS input raw hm
    obtain ⟨evs, hr⟩ := rewriteToks_ok S (tokenize input.data) []
    have hev := comment_kept S hS raw _ _ _ hr hm
    obtain ⟨p, q, hpq⟩ := serialize_mem hev
    refine ⟨p, q, ?_⟩
    simp only [purifier, rewrite_str, hr]
    exact hpq

/-- Witness for C6 with comments removed, at a concrete input. -/
theorem comment_policy_w : purifier "<!--x-->a" Settings.default = "a" :=
  (comment_policy Settings.default).1 rfl

/-- Case-insensitive membership of an attribute name in an allow-list. -/
def memCI (n : List Char) (A : List String) : Bool :=
  A.any (fun s => s.data.map Char.toLower == n.map Char.toLower)

/-- Exact membership in the allow-list implies case-insensitive membership. -/
theorem mem_data_memCI {a1 : List Char} {A : List String}
    (h : a1 ∈ A.map String.data) : memCI a1 A = true := by
  obtain ⟨s, hs, hseq⟩ := List.mem_map.mp h
  simp only [memCI, List.any_eq_true]
  exact ⟨s, hs, by rw [hseq]; exact beq_self_eq_true _⟩

/-- Membership in the filtered attribute list means the (lowercased) name
is exactly in the allow-list. -/
theorem mem_filteredAttrs {find : AllowedElement} {attrs : List Attr} {a : Attr}
    (ha : a ∈ filteredAttrs find attrs) : a ∈ attrs ∧ a.1 ∈ find.attributes.map String.data := by
  have h := List.mem_filter.mp ha
  refine ⟨h.1, ?_⟩
  have hc := h.2
  simpa using hc

/-- Every `emitStart` event of the rewriter output comes from a start
token of the input whose name was found in the allow-list, and carries
exactly the filtered attributes of that token. -/
theorem emitStart_from (S : Settings) (n : List Char) (ats : List Attr) (sc : Bool) :
    ∀ (toks : List Tok) (stack : List Frame) (evs : List OutEvent),
      rewriteToks S stack toks = Except.ok evs →
      OutEvent.emitStart n ats sc ∈ evs →
      ∃ e a0, Tok.startTag n a0 sc ∈ toks ∧ findAllowed S n = some e
        ∧ ats = filteredAttrs e a0 := by
  intro toks
  induction toks with
  | nil =>
    intro stack evs h hm
    simp only [rewriteToks, Except.ok.injEq] at h
    subst h
    simp at hm
  | cons t rest ih =>
    intro stack evs h hm
    cases t with
    | startTag name attrs sc2 =>
      simp only [rewriteToks, element_handler] at h
      cases hf : findAllowed S name with
      | some find =>
        rw [hf] at h
        cases hr : rewriteToks S (if sc2 then stack else ⟨name, true⟩ :: stack) rest with
        | error e =>
          rw [hr] at h
          simp at h
        | ok evs2 =>
          rw [hr] at h
          simp only [Except.ok.injEq] at h
          subst h
          rcases List.mem_cons.mp hm with heq | hmem
          · injection heq with h1 h2 h3
            subst h1
            subst h3
            exact ⟨find, attrs, List.mem_cons_self _ _, hf, h2⟩
          · obtain ⟨e, a0, hmt, hfd, hats⟩ := ih _ _ hr hmem
            exact ⟨e, a0, List.mem_cons_of_mem _ hmt, hfd, hats⟩
      | none =>
        rw [hf] at h
        obtain ⟨e, a0, hmt, hfd, hats⟩ := ih _ _ h hm
        exact ⟨e, a0, List.mem_cons_of_mem _ hmt, hfd, hats⟩
    | endTag name =>
      simp only [rewriteToks] at h
      cases hp : popTo stack name with
      | some pr =>
        obtain ⟨b, stack2⟩ := pr
        cases b with
        | true =>
          simp only [hp] at h
          cases hr : rewriteToks S stack2 rest with
          | error e =>
            rw [hr] at h
            simp at h
          | ok evs2 =>
            rw [hr] at h
            simp only [Except.ok.injEq] at h
            subst h
            rcases List.mem_cons.mp hm with heq | hmem
            · exact absurd heq (by simp)
            · obtain ⟨e, a0, hmt, hfd, hats⟩ := ih _ _ hr hmem
              exact ⟨e, a0, List.mem_cons_of_mem _ hmt, hfd, hats⟩
        | false =>
          simp only [hp] at h
          obtain ⟨e, a0, hmt, hfd, hats⟩ := ih _ _ h hm
          exact ⟨e, a0, List.mem_cons_of_mem _ hmt, hfd, hats⟩
      | none =>
        rw [hp] at h
        obtain ⟨e, a0, hmt, hfd, hats⟩ := ih _ _ h hm
        exact ⟨e, a0, List.mem_cons_of_mem _ hmt, hfd, hats⟩
    | text raw =>
      simp only [rewriteToks] at h
      cases hr : rewriteToks S stack rest with
      | error e =>
        rw [hr] at h
        simp at h
      | ok evs2 =>
        rw [hr] at h
        simp only [Except.ok.injEq] at h
        subst h
        rcases List.mem_cons.mp hm with heq | hmem
        · exact absurd heq (by simp)
        · obtain ⟨e, a0, hmt, hfd, hats⟩ := ih _ _ hr hmem
          exact ⟨e, a0, List.mem_cons_of_mem _ hmt, hfd, hats⟩
    | comment raw =>
      simp only [rewriteToks, comment_handler] at h
      cases hb : S.remove_comments with
      | true =>
        rw [hb] at h
        obtain ⟨e, a0, hmt, hfd, hats⟩ := ih _ _ h hm
        exact ⟨e, a0, List.mem_cons_of_mem _ hmt, hfd, hats⟩
      | false =>
        rw [hb] at h
        cases hr : rewriteToks S stack rest with
        | error e =>
          rw [hr] at h
          simp at h
        | ok evs2 =>
          rw [hr] at h
          simp only [Except.ok.injEq] at h
          subst h
          rcases List.mem_cons.mp hm with heq | hmem
          · exact absurd heq (by simp)
          · obtain ⟨e, a0, hmt, hfd, hats⟩ := ih _ _ hr hmem
            exact ⟨e, a0, List.mem_cons_of_mem _ hmt, hfd, hats⟩
    | other raw =>
      simp only [rewriteToks] at h
      cases hr : rewriteToks S stack rest with
      | error e =>
        rw [hr] at h
        simp at h
      | ok evs2 =>
        rw [hr] at h
        simp only [Except.ok.injEq] at h
        subst h
        rcases List.mem_cons.mp hm with heq | hmem
        · exact absurd heq (by simp)
        · obtain ⟨e, a0, hmt, hfd, hats⟩ := ih _ _ hr hmem
          exact ⟨e, a0, List.mem_cons_of_mem _ hmt, hfd, hats⟩

/-- C4: for an allowed element with attribute allow-list `A`
(`find.attributes`): every retained attribute's name is
(case-insensitively) a member of `A`; an input attribute whose name is
not (case-insensitively) in `A` never appears among the retained
attributes; the retained attributes form a sublist of the input
attributes (input order, unmodified values); and every start-tag event in
the rewriter's output carries exactly the filtered attributes of the
matched allow-list entry. -/
theorem attribute_filtering (find : AllowedElement) (attrs : List Attr) :
    (∀ a ∈ filteredAttrs find attrs, memCI a.1 find.attributes = true)
    ∧ (∀ a ∈ attrs, memCI a.1 find.attributes = false →
        ∀ b ∈ filteredAttrs find attrs, b.1 ≠ a.1)
    ∧ List.Sublist (filteredAttrs find attrs) attrs
    ∧ (∀ (S : Settings) (toks : List Tok) (evs : List OutEvent)
        (n : List Char) (ats : List Attr) (sc : Bool),
        rewriteToks S [] toks = Except.ok evs →
        OutEvent.emitStart n ats sc ∈ evs →
        ∃ e a0, Tok.startTag n a0 sc ∈ toks ∧ findAllowed S n = some e
          ∧ ats = filteredAttrs e a0) := by
  refine ⟨?_, ?_, ?_, ?_⟩
  · intro a ha
    exact mem_data_memCI (mem_filteredAttrs ha).2
  · intro a _ hno b hb hba
    have hm := (mem_filteredAttrs hb).2
    rw [hba] at hm
    rw [mem_data_memCI hm] at hno
    exact Bool.true_eq_false.mp hno
  · exact List.filter_sublist _
  · intro S toks evs n ats sc h hm
    exact emitStart_from S n ats sc toks [] evs h hm

/-- Witness for C4 at a concrete allow-list and attribute list. -/
theorem attribute_filtering_w :
    memCI ['h', 'r', 'e', 'f'] ["href", "title"] = true
    ∧ List.Sublist
        (filteredAttrs ⟨"a", ["href", "title"]⟩
          [(['h', 'r', 'e', 'f'], ['/', 't']), (['s', 't', 'y', 'l', 'e'], ['x'])])
        [(['h', 'r', 'e', 'f'], ['/', 't']), (['s', 't', 'y', 'l', 'e'], ['x'])] := by
  have h := attribute_filtering ⟨"a", ["href", "title"]⟩
    [(['h', 'r', 'e', 'f'], ['/', 't']), (['s', 't', 'y', 'l', 'e'], ['x'])]
  exact ⟨h.1 (['h', 'r', 'e', 'f'], ['/', 't']) (by decide), h.2.2.1⟩

/-- C9: when `Settings.allowed` contains several entries with the same
name, classification deterministically returns the first matching entry
in list order — and that entry's attribute allow-list is the one the
element handler uses; no error is ever raised (the handler is total and
returns `Ok`). -/
theorem first_match_wins (S : Settings) (n : List Char) (e : AllowedElement)
    (l1 l2 : List AllowedElement)
    (hsplit : S.allowed = l1 ++ e :: l2)
    (hname : e.name.data = n)
    (hfirst : ∀ e2 ∈ l1, e2.name.data ≠ n) :
    findAllowed S n = some e
    ∧ ∀ attrs, element_handler S n attrs
        = Except.ok (ElementAction.keep (filteredAttrs e attrs)) := by
  have hf : findAllowed S n = some e := by
    rw [findAllowed, hsplit]
    clear hsplit
    induction l1 with
    | nil =>
      rw [List.nil_append]
      apply List.find?_cons_of_pos
      simp [hname]
    | cons e2 t ih =>
      rw [List.cons_append, List.find?_cons_of_neg]
      · exact ih (fun x hx => hfirst x (List.mem_cons_of_mem _ hx))
      · simp [hfirst e2 (List.mem_cons_self _ _)]
  refine ⟨hf, fun attrs => ?_⟩
  simp [element_handler, hf]

/-- Witness for C9 at a duplicated allow-list entry. -/
theorem first_match_wins_w :
    findAllowed ⟨[⟨"p", ["style"]⟩, ⟨"p", []⟩], true⟩ ['p'] = some ⟨"p", ["style"]⟩ := by
  have h := first_match_wins ⟨[⟨"p", ["style"]⟩, ⟨"p", []⟩], true⟩ ['p']
    ⟨"p", ["style"]⟩ [] [⟨"p", []⟩] (by decide) (by decide) (by simp)
  exact h.1

end HtmlPurifier
